import Mathlib

/-
Shallow embedding of cle's memory module (src/cle/memory.py, class Clemory)
and proofs about its specification.

Modelling conventions:
- Python ints are Int (addresses, bases, the stream pointer, sizes).
- Bytes (1-character strings in the Python 2 source) are Nat.
- A value stored in the _updates dict is normally a byte, but update_backer
  stores a (start, data) tuple there, so the value type UVal is a sum.
- A raised exception is modelled as Option.none; the Python code raises
  before performing the corresponding state mutation in every operation we
  model, so none stands for "exception raised, state unchanged" except where
  noted in a doc comment.
- The cffi buffers of _cbackers are modelled as the byte lists they hold; the
  returned buffer pointer of read_bytes_c is modelled as the run it points
  into together with the offset of the pointer inside that run.
-/

set_option autoImplicit false

namespace Cle

mutual

/-- A backer's region: either a flat byte string or a nested Clemory
(memory.py allows str or Clemory in add_backer / update_backer). -/
inductive Region where
  | str : List Nat → Region
  | mem : Clemory → Region

/-- A value stored in the _updates dict: a byte written by __setitem__, or the
(start, data) pair that update_backer stores under an integer index key. -/
inductive UVal where
  | b : Nat → UVal
  | pr : Int → Region → UVal

/-- The state of a Clemory object: _backers (sorted list of (start, region)),
_updates (dict from int key to value, modelled as an association list with
unique keys in insertion order), _pointer, _flattening_needed, _cbackers. -/
inductive Clemory where
  | mk : List (Int × Region) → List (Int × UVal) → Int → Bool → List (Int × List Nat) → Clemory

end

def Clemory.backers : Clemory → List (Int × Region)
  | .mk bs _ _ _ _ => bs

def Clemory.updates : Clemory → List (Int × UVal)
  | .mk _ us _ _ _ => us

def Clemory.pointer : Clemory → Int
  | .mk _ _ p _ _ => p

def Clemory.flatNeeded : Clemory → Bool
  | .mk _ _ _ f _ => f

def Clemory.cbackers : Clemory → List (Int × List Nat)
  | .mk _ _ _ _ cb => cb

/-- A freshly constructed Clemory (the __init__ body; the arch argument is
only consumed by the word-size helpers, which no claim concerns, so it is
not modelled). -/
def emptyClemory : Clemory := .mk [] [] 0 true []

/-- Python dict assignment d[k] = v on an association list with unique keys:
replace the value of an existing key in place, or append a fresh key. -/
def insertU : List (Int × UVal) → Int → UVal → List (Int × UVal)
  | [], k, v => [(k, v)]
  | (k', v') :: rest, k, v =>
    if k' = k then (k, v) :: rest else (k', v') :: insertU rest k v

/-- bisect.insort on the _backers list, compared by base address (the Python
list holds (start, data) tuples ordered by their first component; entries
with base at most the new base stay in front of it). -/
def insortB : List (Int × Region) → Int × Region → List (Int × Region)
  | [], p => [p]
  | q :: rest, p => if p.1 < q.1 then p :: q :: rest else q :: insortB rest p

mutual

/-- Clemory.__getitem__: return _updates[k] on an exact hit, otherwise scan
the backers in order; none models the final KeyError. -/
def getitem : Clemory → Int → Option UVal
  | .mk bs us _ _ _, k =>
    match List.lookup k us with
    | some v => some v
    | none => scanB bs k

/-- The backer scan loop of __getitem__: first backer that resolves k wins;
a nested Clemory whose lookup raises KeyError is skipped. -/
def scanB : List (Int × Region) → Int → Option UVal
  | [], _ => none
  | (s, r) :: rest, k =>
    match resolveR s r k with
    | some v => some v
    | none => scanB rest k

/-- One backer's attempt to resolve address k: a flat region answers when
0 <= k - start < len(data) with the byte data[k - start]; a nested Clemory
recurses at k - start. -/
def resolveR : Int → Region → Int → Option UVal
  | s, .str d, k =>
    if 0 ≤ k - s ∧ k - s < (d.length : Int) then (d[(k - s).toNat]?).map UVal.b else none
  | s, .mem c, k => getitem c (k - s)

end

/-- Clemory.__contains__: true iff __getitem__ succeeds. -/
def contains (c : Clemory) (k : Int) : Bool :=
  (getitem c k).isSome

/-- Clemory.__setitem__: raise IndexError (none) when k is not contained,
before any mutation; otherwise store the byte in _updates and mark the
flattened view stale. -/
def setitem (c : Clemory) (k : Int) (v : Nat) : Option Clemory :=
  if contains c k then
    some (.mk c.backers (insertU c.updates k (.b v)) c.pointer true c.cbackers)
  else none

/-- Clemory.add_backer: raise ValueError (none) when start is already
contained (a single-address probe), otherwise bisect.insort the new pair and
mark the flattened view stale.  The isinstance type check cannot fail in the
embedding because Region covers exactly the two accepted types. -/
def add_backer (c : Clemory) (start : Int) (data : Region) : Option Clemory :=
  if contains c start then none
  else some (.mk (insortB c.backers (start, data)) c.updates c.pointer true c.cbackers)

/-- Clemory.update_backer, exactly as written in the source: it walks
enumerate(self._backers) to the first entry whose base equals start, and then
executes self._updates[i] = (start, data) — i.e. it stores the (start, data)
pair into the _updates dict under the integer index i, leaving _backers
untouched — sets the stale flag and breaks; it does nothing if no base
matches. -/
def update_backer (c : Clemory) (start : Int) (data : Region) : Clemory :=
  match c.backers.findIdx? (fun p => p.1 == start) with
  | some i =>
    .mk c.backers (insertU c.updates (i : Int) (.pr start data)) c.pointer true c.cbackers
  | none => c

/-- Clemory.read_bytes: n independent __getitem__ calls at consecutive
addresses (range(addr, addr + n) is empty when n <= 0); the first KeyError
propagates, so none means no partial result. -/
def read_bytes (c : Clemory) (addr : Int) (n : Int) : Option (List UVal) :=
  (List.range n.toNat).mapM (fun i => getitem c (addr + (i : Int)))

/-- Clemory.seek: set the stream pointer unconditionally. -/
def seek (c : Clemory) (value : Int) : Clemory :=
  .mk c.backers c.updates value c.flatNeeded c.cbackers

/-- The result of a stream read: a single value for the nbytes == 1 fast
path, the list of values (joined into a string by the source) otherwise. -/
inductive ROut where
  | one : UVal → ROut
  | many : List UVal → ROut

/-- Clemory.read: for nbytes == 1 the pointer is incremented first and the
byte at the old pointer is then read (a KeyError therefore leaves the pointer
advanced); otherwise read_bytes runs first and the pointer is advanced only
after it returns (a KeyError leaves the pointer, and all other state,
unchanged).  The returned pair is (state after the call, result or none). -/
def read (c : Clemory) (nbytes : Int) : Clemory × Option ROut :=
  if nbytes = 1 then
    let c1 : Clemory := .mk c.backers c.updates (c.pointer + 1) c.flatNeeded c.cbackers
    (c1, (getitem c1 (c1.pointer - 1)).map ROut.one)
  else
    match read_bytes c c.pointer nbytes with
    | none => (c, none)
    | some out =>
      (.mk c.backers c.updates (c.pointer + nbytes) c.flatNeeded c.cbackers, some (.many out))

/-- One update entry applied to the run list in _stride_repr: write the byte
into the first run whose [start, start + len) covers the key; none models the
ValueError raised by the for-else when no run covers it. -/
def applyUpd : List (Int × List Nat) → Int → Nat → Option (List (Int × List Nat))
  | [], _, _ => none
  | (s, d) :: rest, k, v =>
    if s ≤ k ∧ k < s + (d.length : Int) then some ((s, d.set (k - s).toNat v) :: rest)
    else (applyUpd rest k v).map (fun l => (s, d) :: l)

/-- The update loop of _stride_repr over every _updates entry.  The bytearray
assignment data[key - start] = val requires a byte value, so the (start, data)
pairs stored by update_backer make it fail (none). -/
def applyUpds (us : List (Int × UVal)) (runs : List (Int × List Nat)) :
    Option (List (Int × List Nat)) :=
  List.foldlM
    (fun rs kv =>
      match kv.2 with
      | UVal.b v => applyUpd rs kv.1 v
      | UVal.pr _ _ => none)
    runs us

mutual

/-- Clemory._stride_repr: one mutable run per backer (nested Clemorys are
recursively flattened and re-offset by the outer base), then every update is
written onto the first run covering it. -/
def strideRepr (c : Clemory) : Option (List (Int × List Nat)) :=
  match c with
  | .mk bs us _ _ _ =>
    match baseRuns bs with
    | none => none
    | some base => applyUpds us base

/-- The backer loop of _stride_repr: a flat region contributes the run
(start, bytearray(data)); a nested Clemory contributes its own _stride_repr
runs with every start shifted by the outer start. -/
def baseRuns : List (Int × Region) → Option (List (Int × List Nat))
  | [] => some []
  | (s, .str d) :: rest =>
    match baseRuns rest with
    | none => none
    | some rs => some ((s, d) :: rs)
  | (s, .mem c) :: rest =>
    match strideRepr c with
    | none => none
    | some sub =>
      match baseRuns rest with
      | none => none
      | some rs => some (sub.map (fun p => (p.1 + s, p.2)) ++ rs)

end

/-- Clemory._flatten_to_c: rebuild _cbackers from _stride_repr and clear the
stale flag.  (The source clears the flag before computing the strides, so a
ValueError there would leave the flag cleared; no claim exercises that path,
and on success the result is the same.) -/
def flatten_to_c (c : Clemory) : Option Clemory :=
  (strideRepr c).map (fun rs => .mk c.backers c.updates c.pointer false rs)

/-- The scan loop of read_bytes_c over _cbackers: the first run with
start <= addr < start + len(cbacker) returns the pair
(cbacker + (addr - start), len(cbacker) - start), modelled as
((start, bytes), pointer offset addr - start, remaining count as computed by
the source, namely len(cbacker) - start). -/
def scanC : List (Int × List Nat) → Int → Option ((Int × List Nat) × Int × Int)
  | [], _ => none
  | (s, d) :: rest, addr =>
    if s ≤ addr ∧ addr < s + (d.length : Int) then
      some ((s, d), addr - s, (d.length : Int) - s)
    else scanC rest addr

/-- Clemory.read_bytes_c: flatten first when the cache is stale, then scan
the runs; none models the final KeyError (or a ValueError out of the
rebuild).  Returns the state after the call together with the result. -/
def read_bytes_c (c : Clemory) (addr : Int) :
    Option (Clemory × ((Int × List Nat) × Int × Int)) :=
  match (if c.flatNeeded then flatten_to_c c else some c) with
  | none => none
  | some c1 =>
    match scanC c1.cbackers addr with
    | none => none
    | some r => some (c1, r)

/-- The byte the buffer pointer returned by read_bytes_c points at:
run data at the returned offset. -/
def flatReadByte (c : Clemory) (addr : Int) : Option Nat :=
  match read_bytes_c c addr with
  | some (_, (_, d), off, _) => d[off.toNat]?
  | none => none

mutual

/-- The snapshot structure that __getstate__ constructs: the updates dict as
(key, ord(value)) pairs and the backers list. -/
inductive Snap where
  | mk : List (Int × Nat) → List (Int × SnapRegion) → Snap

/-- A serialized backer: a str entry carries the bytes; a Clemory entry
carries the value of the nested __getstate__ call. -/
inductive SnapRegion where
  | sdata : List Nat → SnapRegion
  | sclem : Option Snap → SnapRegion

end

def Snap.updates : Snap → List (Int × Nat)
  | .mk us _ => us

def Snap.backers : Snap → List (Int × SnapRegion)
  | .mk _ bs => bs

mutual

/-- The out dict that the body of __getstate__ constructs: ord(v) on a value
that is not a 1-character string (the pairs stored by update_backer) raises
TypeError, modelled as none. -/
def getstateAux (c : Clemory) : Option Snap :=
  match c with
  | .mk bs us _ _ _ =>
    match us.mapM (fun kv =>
      match kv.2 with
      | UVal.b v => some (kv.1, v)
      | UVal.pr _ _ => none) with
    | none => none
    | some sus =>
      match getstateBackers bs with
      | none => none
      | some sbs => some (.mk sus sbs)

/-- The backers loop of __getstate__.  For a nested Clemory the source stores
data.__getstate__() — which is the nested call's return value, None — after
running the nested body (whose failure propagates). -/
def getstateBackers : List (Int × Region) → Option (List (Int × SnapRegion))
  | [] => some []
  | (s, .str d) :: rest =>
    match getstateBackers rest with
    | none => none
    | some l => some ((s, .sdata d) :: l)
  | (s, .mem c) :: rest =>
    match getstateAux c with
    | none => none
    | some _ =>
      match getstateBackers rest with
      | none => none
      | some l => some ((s, SnapRegion.sclem none) :: l)

end

/-- Clemory.__getstate__ exactly as written: the body builds the out
structure (getstateAux) but the function has no return statement, so when the
construction succeeds the call returns None (some none); a TypeError during
the construction propagates (none). -/
def getstate (c : Clemory) : Option (Option Snap) :=
  (getstateAux c).map (fun _ => none)

mutual

/-- Clemory.__setstate__ on state c: rebuild _updates and _backers from the
snapshot, keep _pointer (never restored by the source) and _cbackers, and
mark the flattened view stale.  A nested entry whose stored data is None
makes the recursive __setstate__ call raise (none). -/
def setstate (c : Clemory) (s : Snap) : Option Clemory :=
  match s with
  | .mk sus sbs =>
    match setstateBackers sbs with
    | none => none
    | some bs =>
      some (.mk bs (sus.map (fun kv => (kv.1, UVal.b kv.2))) c.pointer true c.cbackers)

/-- The backers loop of __setstate__: a str entry is used as is; a Clemory
entry is rebuilt by running __setstate__ on a fresh Clemory. -/
def setstateBackers : List (Int × SnapRegion) → Option (List (Int × Region))
  | [] => some []
  | (s, .sdata d) :: rest =>
    match setstateBackers rest with
    | none => none
    | some l => some ((s, .str d) :: l)
  | (_, .sclem none) :: _ => none
  | (s, .sclem (some sub)) :: rest =>
    match setstate emptyClemory sub with
    | none => none
    | some subc =>
      match setstateBackers rest with
      | none => none
      | some l => some ((s, Region.mem subc) :: l)

end

/-- First run covering an address and the byte it holds there; the reference
semantics of reading through the flattened representation. -/
def runByte : List (Int × List Nat) → Int → Option Nat
  | [], _ => none
  | (s, d) :: rest, a =>
    if s ≤ a ∧ a < s + (d.length : Int) then d[(a - s).toNat]? else runByte rest a

/-- The (start, length) shape of a run list; update application preserves it. -/
def rshape (rs : List (Int × List Nat)) : List (Int × Nat) :=
  rs.map (fun p => (p.1, p.2.length))

/-- The byte recorded for an address in an updates list, when it is a byte. -/
def lookupByte (us : List (Int × UVal)) (a : Int) : Option Nat :=
  match List.lookup a us with
  | some (UVal.b v) => some v
  | _ => none

/-- First-hit choice on optional bytes: the left value when present, the
right one otherwise. -/
def oOr (x y : Option Nat) : Option Nat :=
  match x with
  | some v => some v
  | none => y

/-- The byte under an optional resolved value, when that value is a byte. -/
def optByte : Option UVal → Option Nat
  | some (UVal.b v) => some v
  | some (UVal.pr _ _) => none
  | none => none

/-- Some run of the list covers the address. -/
def covers (rs : List (Int × List Nat)) (a : Int) : Prop :=
  ∃ p ∈ rs, p.1 ≤ a ∧ a < p.1 + (p.2.length : Int)

/-- The backers list is sorted by base address, ascending. -/
def SortedB (bs : List (Int × Region)) : Prop :=
  List.Pairwise (fun p q => p.1 ≤ q.1) bs

/-- Example state: one flat backer of two bytes at base 0. -/
def exC1 : Clemory := .mk [(0, .str [1, 2])] [] 0 true []

/-- Example state: one flat backer of four bytes at base 2. -/
def exFlat : Clemory := .mk [(2, .str [10, 20, 30, 40])] [] 0 true []

/-- Example state: one flat backer of three bytes at base 0. -/
def exAdded : Clemory := .mk [(0, .str [1, 2, 3])] [] 0 true []

/-- Example state: exAdded after the byte write setitem at address 1. -/
def exWritten : Clemory := .mk [(0, .str [1, 2, 3])] [(1, .b 7)] 0 true []

/-- Example state: a nested Clemory (two bytes at its local base 0) mounted
at base 10, so outer addresses 10 and 11 resolve only through it. -/
def exNested : Clemory := .mk [(10, .mem (.mk [(0, .str [5, 6])] [] 0 true []))] [] 0 true []

/-- States reachable from a fresh Clemory by successful add_backer calls
(whose nested regions are themselves reachable) and successful __setitem__
byte writes. -/
inductive Reachable : Clemory → Prop where
  | empty : Reachable emptyClemory
  | addStr {c : Clemory} {s : Int} {d : List Nat} {c' : Clemory} :
      Reachable c → add_backer c s (.str d) = some c' → Reachable c'
  | addMem {c cn : Clemory} {s : Int} {c' : Clemory} :
      Reachable c → Reachable cn → add_backer c s (.mem cn) = some c' → Reachable c'
  | write {c : Clemory} {k : Int} {v : Nat} {c' : Clemory} :
      Reachable c → setitem c k v = some c' → Reachable c'

/-- The structural invariant of reachable states: update keys are distinct,
every update value is a byte, every update key is resolvable through the
backers alone, and every nested Clemory satisfies the same invariant. -/
inductive WFc : Clemory → Prop where
  | intro (bs : List (Int × Region)) (us : List (Int × UVal)) (p : Int) (f : Bool)
      (cb : List (Int × List Nat)) :
      (us.map Prod.fst).Nodup →
      (∀ kv ∈ us, ∃ n, kv.2 = UVal.b n) →
      (∀ kv ∈ us, (scanB bs kv.1).isSome) →
      (∀ s c', (s, Region.mem c') ∈ bs → WFc c') →
      WFc (.mk bs us p f cb)

@[simp]
theorem backers_mk (bs : List (Int × Region)) (us : List (Int × UVal)) (p : Int) (f : Bool)
    (cb : List (Int × List Nat)) : (Clemory.mk bs us p f cb).backers = bs := rfl

@[simp]
theorem updates_mk (bs : List (Int × Region)) (us : List (Int × UVal)) (p : Int) (f : Bool)
    (cb : List (Int × List Nat)) : (Clemory.mk bs us p f cb).updates = us := rfl

@[simp]
theorem pointer_mk (bs : List (Int × Region)) (us : List (Int × UVal)) (p : Int) (f : Bool)
    (cb : List (Int × List Nat)) : (Clemory.mk bs us p f cb).pointer = p := rfl

@[simp]
theorem flatNeeded_mk (bs : List (Int × Region)) (us : List (Int × UVal)) (p : Int) (f : Bool)
    (cb : List (Int × List Nat)) : (Clemory.mk bs us p f cb).flatNeeded = f := rfl

@[simp]
theorem cbackers_mk (bs : List (Int × Region)) (us : List (Int × UVal)) (p : Int) (f : Bool)
    (cb : List (Int × List Nat)) : (Clemory.mk bs us p f cb).cbackers = cb := rfl

theorem clemory_eta (c : Clemory) :
    c = .mk c.backers c.updates c.pointer c.flatNeeded c.cbackers := by
  cases c
  rfl

theorem lookupU_cons_self (k : Int) (v : UVal) (l : List (Int × UVal)) :
    List.lookup k ((k, v) :: l) = some v := by
  simp [List.lookup_cons]

theorem lookupU_cons_ne (k a : Int) (v : UVal) (l : List (Int × UVal)) (h : k ≠ a) :
    List.lookup k ((a, v) :: l) = List.lookup k l := by
  have hb : (k == a) = false := beq_eq_false_iff_ne.mpr h
  simp [List.lookup_cons, hb]

theorem insertU_cons_eq (k' k : Int) (v' v : UVal) (rest : List (Int × UVal)) (h : k' = k) :
    insertU ((k', v') :: rest) k v = (k, v) :: rest := by
  simp [insertU, h]

theorem insertU_cons_ne (k' k : Int) (v' v : UVal) (rest : List (Int × UVal)) (h : ¬k' = k) :
    insertU ((k', v') :: rest) k v = (k', v') :: insertU rest k v := by
  simp [insertU, h]

theorem lookup_insertU_self (l : List (Int × UVal)) (k : Int) (v : UVal) :
    List.lookup k (insertU l k v) = some v := by
  induction l with
  | nil => exact lookupU_cons_self k v []
  | cons hd tl ih =>
    obtain ⟨a, b⟩ := hd
    by_cases ha : a = k
    · rw [insertU_cons_eq a k b v tl ha, lookupU_cons_self]
    · rw [insertU_cons_ne a k b v tl ha, lookupU_cons_ne k a b _ (fun he => ha he.symm), ih]

theorem lookup_insertU_ne (l : List (Int × UVal)) (k k' : Int) (v : UVal) (h : k' ≠ k) :
    List.lookup k' (insertU l k v) = List.lookup k' l := by
  induction l with
  | nil => rw [show insertU [] k v = [(k, v)] from rfl, lookupU_cons_ne k' k v [] h]
  | cons hd tl ih =>
    obtain ⟨a, b⟩ := hd
    by_cases ha : a = k
    · subst ha
      rw [insertU_cons_eq a a b v tl rfl, lookupU_cons_ne k' a v tl h,
        lookupU_cons_ne k' a b tl h]
    · by_cases hk : k' = a
      · subst hk
        rw [insertU_cons_ne k' k b v tl ha, lookupU_cons_self, lookupU_cons_self]
      · rw [insertU_cons_ne a k b v tl ha, lookupU_cons_ne k' a b _ hk,
          lookupU_cons_ne k' a b tl hk, ih]

theorem mem_insertU (l : List (Int × UVal)) (k : Int) (v : UVal) (kv : Int × UVal)
    (h : kv ∈ insertU l k v) : kv = (k, v) ∨ kv ∈ l := by
  induction l with
  | nil =>
    rw [show insertU [] k v = [(k, v)] from rfl] at h
    exact Or.inl (List.mem_singleton.mp h)
  | cons hd tl ih =>
    obtain ⟨a, b⟩ := hd
    by_cases ha : a = k
    · rw [insertU_cons_eq a k b v tl ha] at h
      rcases List.mem_cons.mp h with h | h
      · exact Or.inl h
      · exact Or.inr (List.mem_cons_of_mem _ h)
    · rw [insertU_cons_ne a k b v tl ha] at h
      rcases List.mem_cons.mp h with h | h
      · exact Or.inr (by simp [h])
      · rcases ih h with h' | h'
        · exact Or.inl h'
        · exact Or.inr (List.mem_cons_of_mem _ h')

theorem keys_insertU_nodup (l : List (Int × UVal)) (k : Int) (v : UVal)
    (h : (l.map Prod.fst).Nodup) : ((insertU l k v).map Prod.fst).Nodup := by
  induction l with
  | nil => simp [show insertU [] k v = [(k, v)] from rfl]
  | cons hd tl ih =>
    obtain ⟨a, b⟩ := hd
    simp only [List.map_cons, List.nodup_cons] at h
    by_cases ha : a = k
    · subst ha
      rw [insertU_cons_eq a a b v tl rfl]
      simp only [List.map_cons, List.nodup_cons]
      exact ⟨h.1, h.2⟩
    · rw [insertU_cons_ne a k b v tl ha]
      simp only [List.map_cons, List.nodup_cons]
      refine ⟨?_, ih h.2⟩
      intro hmem
      rcases List.mem_map.mp hmem with ⟨q, hq, hq1⟩
      rcases mem_insertU tl k v q hq with h' | h'
      · subst h'
        exact ha hq1.symm
      · exact h.1 (List.mem_map.mpr ⟨q, h', hq1⟩)

theorem lookup_eq_none_of_not_mem_keys (l : List (Int × UVal)) (k : Int)
    (h : k ∉ l.map Prod.fst) : List.lookup k l = none := by
  induction l with
  | nil => rfl
  | cons hd tl ih =>
    obtain ⟨a, b⟩ := hd
    simp only [List.map_cons, List.mem_cons] at h
    push_neg at h
    rw [lookupU_cons_ne k a b tl h.1, ih h.2]

theorem getitem_mk (bs : List (Int × Region)) (us : List (Int × UVal)) (p : Int) (f : Bool)
    (cb : List (Int × List Nat)) (k : Int) :
    getitem (.mk bs us p f cb) k =
      match List.lookup k us with
      | some v => some v
      | none => scanB bs k := rfl

theorem getitem_pointer_free (bs : List (Int × Region)) (us : List (Int × UVal))
    (p p' : Int) (f f' : Bool) (cb cb' : List (Int × List Nat)) (k : Int) :
    getitem (.mk bs us p f cb) k = getitem (.mk bs us p' f' cb') k := rfl

/-- C6. The byte write __setitem__ fails exactly when a read at the same
address would fail (none models the IndexError, raised before any mutation,
so the Python state — overlay, backers, stale flag, cursor — is untouched on
failure); on success it only replaces the overlay with the overlay extended
at that one address, marks the view stale, and leaves the backer store, the
cursor and the flattened cache untouched. -/
theorem setitem_notbacked_frame (c : Clemory) (k : Int) (v : Nat) :
    (setitem c k v = none ↔ getitem c k = none) ∧
    (∀ c', setitem c k v = some c' →
      c'.backers = c.backers ∧ c'.updates = insertU c.updates k (UVal.b v) ∧
      c'.pointer = c.pointer ∧ c'.flatNeeded = true ∧ c'.cbackers = c.cbackers) := by
  constructor
  · unfold setitem contains
    cases h : getitem c k with
    | none => simp [h]
    | some v' => simp [h]
  · intro c' hc'
    unfold setitem at hc'
    by_cases h : contains c k = true
    · rw [if_pos h] at hc'
      cases hc'
      simp
    · rw [if_neg h] at hc'
      cases hc'

/-- Witness for setitem_notbacked_frame at a concrete state: the write at
address 1 of exAdded succeeds and only extends the overlay. -/
theorem setitem_notbacked_frame_witness :
    exWritten.backers = exAdded.backers ∧
    exWritten.updates = insertU exAdded.updates 1 (UVal.b 7) ∧
    exWritten.pointer = exAdded.pointer ∧ exWritten.flatNeeded = true ∧
    exWritten.cbackers = exAdded.cbackers :=
  (setitem_notbacked_frame exAdded 1 7).2 exWritten rfl

/-- C7. Write-then-read consistency: when address a is resolvable, writing v
there succeeds and an immediate read returns exactly v. -/
theorem write_then_read (c : Clemory) (a : Int) (v : Nat) (h : (getitem c a).isSome) :
    ∃ c', setitem c a v = some c' ∧ getitem c' a = some (UVal.b v) := by
  have hc : contains c a = true := h
  refine ⟨.mk c.backers (insertU c.updates a (UVal.b v)) c.pointer true c.cbackers, ?_, ?_⟩
  · simp [setitem, hc]
  · rw [getitem_mk, lookup_insertU_self]

/-- Witness for write_then_read: writing 9 at address 2 of exAdded and
reading it back. -/
theorem write_then_read_witness :
    ∃ c', setitem exAdded 2 9 = some c' ∧ getitem c' 2 = some (UVal.b 9) :=
  write_then_read exAdded 2 9 (by rfl)

/-- C1. What update_backer actually does on a state whose backer store has an
entry with base exactly 0: the backer store is left untouched (the region is
NOT swapped), and the overlay index is NOT left unchanged — it gains the pair
(start, data) keyed by the matching backer's list index.  The code writes
self._updates[i] = (start, data) where the enumerate pattern shows
self._backers[i] was intended. -/
theorem update_backer_writes_overlay :
    (update_backer exC1 0 (.str [3, 4])).backers = exC1.backers ∧
    exC1.backers = [(0, .str [1, 2])] ∧
    (update_backer exC1 0 (.str [3, 4])).updates = [(0, UVal.pr 0 (.str [3, 4]))] ∧
    exC1.updates = [] := by
  refine ⟨?_, rfl, ?_, rfl⟩ <;> rfl

/-- C5 counterexample. A failed 2-byte stream read from a fresh (unbacked)
Clemory leaves the cursor where it was: the cursor does not advance by n on
this failing multi-byte read, contradicting the claim that the cursor is
advanced unconditionally before the failure is raised. -/
theorem read_failed_multibyte_pointer :
    (read emptyClemory 2).2 = none ∧
    (read emptyClemory 2).1.pointer = 0 ∧
    (read emptyClemory 2).1.pointer ≠ emptyClemory.pointer + 2 := by
  refine ⟨rfl, rfl, ?_⟩
  decide

/-- C5 amended. The cursor advances by n on every successful stream read;
on a failing read it advances only on the single-byte fast path (where the
source increments the cursor before reading), while a failing read of any
other size leaves the cursor unchanged because read_bytes raises before the
cursor update. -/
theorem read_pointer_advance (c : Clemory) (n : Int) :
    ((read c 1).1.pointer = c.pointer + 1) ∧
    (∀ out, (read c n).2 = some out → (read c n).1.pointer = c.pointer + n) ∧
    (n ≠ 1 → (read c n).2 = none → (read c n).1.pointer = c.pointer) := by
  refine ⟨rfl, ?_, ?_⟩
  · intro out hout
    by_cases h1 : n = 1
    · subst h1
      exact rfl
    · rw [read, if_neg h1] at hout ⊢
      cases hrb : read_bytes c c.pointer n with
      | none =>
        rw [hrb] at hout
        exact Option.noConfusion hout
      | some l => rfl
  · intro h1 hnone
    rw [read, if_neg h1] at hnone ⊢
    cases hrb : read_bytes c c.pointer n with
    | none => rfl
    | some l =>
      rw [hrb] at hnone
      exact Option.noConfusion hnone

/-- Witness for read_pointer_advance: the failing 2-byte read from a fresh
Clemory leaves the cursor at 0. -/
theorem read_pointer_advance_witness :
    (read emptyClemory 2).1.pointer = emptyClemory.pointer :=
  (read_pointer_advance emptyClemory 2).2.2 (by decide) rfl

/-- C9. The multi-byte stream-read path is atomic on error: when a read of
size at least 2 fails because some address in the range is unresolvable, the
returned state is exactly the original one — same cursor, same overlay, same
backers. -/
theorem read_multibyte_atomic (c : Clemory) (n : Int) (h2 : 2 ≤ n)
    (hfail : (read c n).2 = none) : (read c n).1 = c := by
  have h1 : n ≠ 1 := by omega
  rw [read, if_neg h1] at hfail ⊢
  cases hrb : read_bytes c c.pointer n with
  | none => rfl
  | some l =>
    rw [hrb] at hfail
    exact Option.noConfusion hfail

/-- Witness for read_multibyte_atomic: the failing 2-byte read from a fresh
Clemory returns the original state. -/
theorem read_multibyte_atomic_witness :
    (read emptyClemory 2).1 = emptyClemory :=
  read_multibyte_atomic emptyClemory 2 (by decide) rfl

theorem mem_insortB (bs : List (Int × Region)) (p x : Int × Region)
    (h : x ∈ insortB bs p) : x ∈ bs ∨ x = p := by
  induction bs with
  | nil =>
    rw [show insortB [] p = [p] from rfl] at h
    exact Or.inr (List.mem_singleton.mp h)
  | cons q rest ih =>
    rw [insortB] at h
    by_cases hlt : p.1 < q.1
    · rw [if_pos hlt] at h
      rcases List.mem_cons.mp h with h | h
      · exact Or.inr h
      · exact Or.inl h
    · rw [if_neg hlt] at h
      rcases List.mem_cons.mp h with h | h
      · exact Or.inl (by simp [h])
      · rcases ih h with h' | h'
        · exact Or.inl (List.mem_cons_of_mem _ h')
        · exact Or.inr h'

theorem sortedB_iff (bs : List (Int × Region)) :
    SortedB bs ↔ List.Pairwise (fun p q => p.1 ≤ q.1) bs := Iff.rfl

theorem sortedB_insortB (bs : List (Int × Region)) (p : Int × Region) (h : SortedB bs) :
    SortedB (insortB bs p) := by
  induction bs with
  | nil => simp [insortB, sortedB_iff]
  | cons q rest ih =>
    rw [sortedB_iff, List.pairwise_cons] at h
    rw [insortB]
    by_cases hlt : p.1 < q.1
    · rw [if_pos hlt]
      rw [sortedB_iff, List.pairwise_cons]
      constructor
      · intro x hx
        rcases List.mem_cons.mp hx with hx | hx
        · subst hx; omega
        · have := h.1 x hx; omega
      · exact List.pairwise_cons.mpr h
    · rw [if_neg hlt]
      rw [sortedB_iff, List.pairwise_cons]
      constructor
      · intro x hx
        rcases mem_insortB rest p x hx with hx | hx
        · exact h.1 x hx
        · subst hx; omega
      · exact ih h.2

/-- C8. Every operation keeps the backer store sorted by base address,
ascending: add_backer inserts at the bisect position, update_backer (as
coded) never modifies the backer store, and the write, seek, stream-read and
flatten operations leave it untouched. -/
theorem backers_sorted_invariant (c : Clemory) (h : SortedB c.backers) :
    (∀ s r c', add_backer c s r = some c' → SortedB c'.backers) ∧
    (∀ s r, SortedB (update_backer c s r).backers) ∧
    (∀ k v c', setitem c k v = some c' → SortedB c'.backers) ∧
    (∀ v, SortedB (seek c v).backers) ∧
    (∀ n, SortedB ((read c n).1).backers) ∧
    (∀ c', flatten_to_c c = some c' → SortedB c'.backers) := by
  refine ⟨?_, ?_, ?_, ?_, ?_, ?_⟩
  · intro s r c' hc'
    rw [add_backer] at hc'
    by_cases hcon : contains c s = true
    · rw [if_pos hcon] at hc'; cases hc'
    · rw [if_neg hcon] at hc'
      cases hc'
      exact sortedB_insortB c.backers (s, r) h
  · intro s r
    rw [update_backer]
    cases hidx : c.backers.findIdx? (fun p => p.1 == s) with
    | none => exact h
    | some i => exact h
  · intro k v c' hc'
    rw [setitem] at hc'
    by_cases hcon : contains c k = true
    · rw [if_pos hcon] at hc'
      cases hc'
      exact h
    · rw [if_neg hcon] at hc'; cases hc'
  · intro v
    exact h
  · intro n
    rw [read]
    by_cases h1 : n = 1
    · rw [if_pos h1]
      exact h
    · rw [if_neg h1]
      cases hrb : read_bytes c c.pointer n with
      | none => exact h
      | some l => exact h
  · intro c' hc'
    rw [flatten_to_c] at hc'
    cases hsr : strideRepr c with
    | none => rw [hsr] at hc'; cases hc'
    | some rs =>
      rw [hsr] at hc'
      cases hc'
      exact h

/-- Witness for backers_sorted_invariant: adding a backer at base 1 to
exAdded (whose single backer sits at base 0) keeps the store sorted. -/
theorem backers_sorted_invariant_witness :
    SortedB (Clemory.mk [(0, Region.str [1, 2, 3]), (5, Region.str [9])] [] 0 true []).backers :=
  (backers_sorted_invariant exAdded (by simp [sortedB_iff, exAdded])).1 5 (.str [9])
    (Clemory.mk [(0, Region.str [1, 2, 3]), (5, Region.str [9])] [] 0 true []) rfl

theorem scanB_isSome_of_mem (bs : List (Int × Region)) (s : Int) (r : Region) (a : Int)
    (hmem : (s, r) ∈ bs) (hres : (resolveR s r a).isSome) : (scanB bs a).isSome := by
  induction bs with
  | nil => cases hmem
  | cons q rest ih =>
    obtain ⟨s', r'⟩ := q
    rw [scanB]
    cases hq : resolveR s' r' a with
    | some v => rfl
    | none =>
      rcases List.mem_cons.mp hmem with hm | hm
      · injection hm with hs hr
        subst hs
        subst hr
        rw [hq] at hres
        simp at hres
      · exact ih hm

/-- C10. A byte write at an address that is not in the overlay, is covered by
no flat backer, and is resolvable through a nested Clemory backer, succeeds
and records the new byte in the outer overlay index only: the backer store —
and hence every nested Clemory inside it, with its own overlay and backers —
is left completely unchanged. -/
theorem nested_write_outer_overlay (c : Clemory) (a : Int) (v : Nat)
    (hu : List.lookup a c.updates = none)
    (hflat : ∀ s d, (s, Region.str d) ∈ c.backers → ¬(0 ≤ a - s ∧ a - s < (d.length : Int)))
    (hmem : ∃ s cn, (s, Region.mem cn) ∈ c.backers ∧ (getitem cn (a - s)).isSome) :
    ∃ c', setitem c a v = some c' ∧
      c'.updates = insertU c.updates a (UVal.b v) ∧
      c'.backers = c.backers ∧
      (∀ s cn, (s, Region.mem cn) ∈ c.backers → (s, Region.mem cn) ∈ c'.backers) := by
  obtain ⟨s, cn, hin, hres⟩ := hmem
  have hscan : (scanB c.backers a).isSome :=
    scanB_isSome_of_mem c.backers s (Region.mem cn) a hin (by rw [resolveR]; exact hres)
  have hget : (getitem c a).isSome := by
    rw [clemory_eta c, getitem_mk, hu]
    exact hscan
  have hc : contains c a = true := hget
  refine ⟨.mk c.backers (insertU c.updates a (UVal.b v)) c.pointer true c.cbackers,
    by simp [setitem, hc], rfl, rfl, ?_⟩
  intro s' cn' hmem'
  simpa using hmem'

/-- Witness for nested_write_outer_overlay: writing at address 11 of the
nested example, resolvable only through the nested Clemory at base 10. -/
theorem nested_write_outer_overlay_witness :
    ∃ c', setitem exNested 11 9 = some c' ∧
      c'.updates = insertU exNested.updates 11 (UVal.b 9) ∧
      c'.backers = exNested.backers ∧
      (∀ s cn, (s, Region.mem cn) ∈ exNested.backers → (s, Region.mem cn) ∈ c'.backers) :=
  nested_write_outer_overlay exNested 11 9 rfl
    (by
      intro s d hmem
      simp [exNested] at hmem)
    ⟨10, .mk [(0, .str [5, 6])] [] 0 true [], by simp [exNested], by rfl⟩

/-- C2. What read_bytes_c actually returns on a freshly flattened state with
one run of four bytes at start 2, queried at address 3: the pointer is
correctly positioned at offset 1 = 3 - 2 into the run, but the companion
count is len(cbacker) - start = 4 - 2 = 2, not the number of bytes remaining
from the offset to the run's end, which is len - (addr - start) = 3. -/
theorem read_bytes_c_remaining_miscount :
    ((read_bytes_c exFlat 3).map (fun p => p.2)) = some ((2, [10, 20, 30, 40]), 1, 2) ∧
    (1 : Int) = 3 - 2 ∧
    ((2 : Int) ≠ (([10, 20, 30, 40] : List Nat).length : Int) - (3 - 2)) := by
  refine ⟨rfl, rfl, by decide⟩

/-- C4. Clemory.__getstate__ builds the snapshot structure for a state with
one backer of three bytes at base 0 — getstateAux shows the structure the
body assembles — but the function body has no return statement, so the call
returns None (modelled some none); __setstate__ cannot be applied to that
output, so restore(snapshot(space)) cannot reproduce the space. -/
theorem getstate_returns_none :
    getstate exAdded = some none ∧
    getstateAux exAdded = some (.mk [] [(0, .sdata [1, 2, 3])]) := ⟨rfl, rfl⟩

theorem oOr_some (v : Nat) (y : Option Nat) : oOr (some v) y = some v := rfl

theorem oOr_none (y : Option Nat) : oOr none y = y := rfl

theorem optByte_map_b (x : Option Nat) : optByte (x.map UVal.b) = x := by
  cases x <;> rfl

theorem runByte_cons (s : Int) (d : List Nat) (rest : List (Int × List Nat)) (a : Int) :
    runByte ((s, d) :: rest) a =
      if s ≤ a ∧ a < s + (d.length : Int) then d[(a - s).toNat]? else runByte rest a := rfl

theorem runByte_append (xs ys : List (Int × List Nat)) (a : Int) :
    runByte (xs ++ ys) a = oOr (runByte xs a) (runByte ys a) := by
  induction xs with
  | nil => rfl
  | cons q rest ih =>
    obtain ⟨s, d⟩ := q
    rw [List.cons_append, runByte_cons, runByte_cons]
    by_cases h : s ≤ a ∧ a < s + (d.length : Int)
    · rw [if_pos h, if_pos h]
      have hlt : (a - s).toNat < d.length := by omega
      rw [List.getElem?_eq_getElem hlt]
      rfl
    · rw [if_neg h, if_neg h, ih]

theorem runByte_offset (xs : List (Int × List Nat)) (s a : Int) :
    runByte (xs.map (fun p => (p.1 + s, p.2))) a = runByte xs (a - s) := by
  induction xs with
  | nil => rfl
  | cons q rest ih =>
    obtain ⟨t, d⟩ := q
    rw [List.map_cons]
    rw [runByte_cons, runByte_cons]
    by_cases h : t + s ≤ a ∧ a < t + s + (d.length : Int)
    · have h' : t ≤ a - s ∧ a - s < t + (d.length : Int) := by omega
      rw [if_pos h, if_pos h']
      have he : a - (t + s) = a - s - t := by ring
      rw [he]
    · have h' : ¬(t ≤ a - s ∧ a - s < t + (d.length : Int)) := by omega
      rw [if_neg h, if_neg h', ih]

theorem covers_cons (s : Int) (d : List Nat) (rest : List (Int × List Nat)) (a : Int) :
    covers ((s, d) :: rest) a ↔ (s ≤ a ∧ a < s + (d.length : Int)) ∨ covers rest a := by
  constructor
  · rintro ⟨p, hp, hc⟩
    rcases List.mem_cons.mp hp with hp | hp
    · subst hp
      exact Or.inl hc
    · exact Or.inr ⟨p, hp, hc⟩
  · rintro (hc | ⟨p, hp, hc⟩)
    · exact ⟨(s, d), List.mem_cons_self _ _, hc⟩
    · exact ⟨p, List.mem_cons_of_mem _ hp, hc⟩

theorem isSome_runByte_iff (rs : List (Int × List Nat)) (a : Int) :
    (runByte rs a).isSome ↔ covers rs a := by
  induction rs with
  | nil => simp [runByte, covers]
  | cons q rest ih =>
    obtain ⟨s, d⟩ := q
    rw [runByte_cons, covers_cons]
    by_cases h : s ≤ a ∧ a < s + (d.length : Int)
    · rw [if_pos h]
      constructor
      · intro _
        exact Or.inl h
      · intro _
        have hlt : (a - s).toNat < d.length := by omega
        rw [List.getElem?_eq_getElem hlt]
        rfl
    · rw [if_neg h, ih]
      constructor
      · intro hc
        exact Or.inr hc
      · rintro (hc | hc)
        · exact absurd hc h
        · exact hc

theorem rshape_cons (s : Int) (d : List Nat) (rest : List (Int × List Nat)) :
    rshape ((s, d) :: rest) = (s, d.length) :: rshape rest := rfl

theorem covers_of_rshape (xs ys : List (Int × List Nat)) (h : rshape xs = rshape ys) (a : Int) :
    covers xs a ↔ covers ys a := by
  induction xs generalizing ys with
  | nil =>
    cases ys with
    | nil => exact Iff.rfl
    | cons qy resty => exact absurd h (by simp [rshape])
  | cons qx restx ih =>
    cases ys with
    | nil => exact absurd h (by simp [rshape])
    | cons qy resty =>
      obtain ⟨sx, dx⟩ := qx
      obtain ⟨sy, dy⟩ := qy
      rw [rshape_cons, rshape_cons] at h
      injection h with hhead htail
      injection hhead with hs hl
      rw [covers_cons, covers_cons, hs, hl, ih resty htail]

theorem applyUpd_spec (rs : List (Int × List Nat)) (k : Int) (v : Nat) (hcov : covers rs k) :
    ∃ rs', applyUpd rs k v = some rs' ∧ rshape rs' = rshape rs ∧
      ∀ a, runByte rs' a = if a = k then some v else runByte rs a := by
  induction rs with
  | nil =>
    rcases hcov with ⟨p, hp, _⟩
    cases hp
  | cons q rest ih =>
    obtain ⟨s, d⟩ := q
    by_cases h : s ≤ k ∧ k < s + (d.length : Int)
    · refine ⟨(s, d.set (k - s).toNat v) :: rest, ?_, ?_, ?_⟩
      · rw [applyUpd, if_pos h]
      · rw [rshape_cons, rshape_cons, List.length_set]
      · intro a
        rw [runByte_cons, runByte_cons, List.length_set]
        by_cases ha : s ≤ a ∧ a < s + (d.length : Int)
        · rw [if_pos ha, if_pos ha]
          by_cases hak : a = k
          · subst hak
            rw [if_pos rfl]
            have hlt : (a - s).toNat < d.length := by omega
            exact List.getElem?_set_self hlt
          · rw [if_neg hak]
            have hne : (k - s).toNat ≠ (a - s).toNat := by omega
            exact List.getElem?_set_ne hne
        · rw [if_neg ha, if_neg ha]
          have hak : a ≠ k := fun he => ha (he ▸ h)
          rw [if_neg hak]
    · have hcr : covers rest k := by
        rcases (covers_cons s d rest k).mp hcov with hc | hc
        · exact absurd hc h
        · exact hc
      obtain ⟨rest', h1, h2, h3⟩ := ih hcr
      refine ⟨(s, d) :: rest', ?_, ?_, ?_⟩
      · rw [applyUpd, if_neg h, h1]
        rfl
      · rw [rshape_cons, rshape_cons, h2]
      · intro a
        rw [runByte_cons, runByte_cons]
        by_cases ha : s ≤ a ∧ a < s + (d.length : Int)
        · rw [if_pos ha, if_pos ha]
          have hak : a ≠ k := fun he => h (he ▸ ha)
          rw [if_neg hak]
        · rw [if_neg ha, if_neg ha, h3 a]

theorem applyUpds_nil (rs : List (Int × List Nat)) : applyUpds [] rs = some rs := rfl

theorem applyUpds_cons_b (k : Int) (v : Nat) (rest : List (Int × UVal))
    (rs : List (Int × List Nat)) :
    applyUpds ((k, UVal.b v) :: rest) rs =
      (applyUpd rs k v).bind (fun rs1 => applyUpds rest rs1) := by
  show (applyUpd rs k v) >>= (fun rs1 => applyUpds rest rs1) =
    (applyUpd rs k v).bind (fun rs1 => applyUpds rest rs1)
  cases applyUpd rs k v with
  | none => rfl
  | some rs1 => rfl

theorem lookupByte_cons_self (k : Int) (v : Nat) (rest : List (Int × UVal)) :
    lookupByte ((k, UVal.b v) :: rest) k = some v := by
  rw [lookupByte, lookupU_cons_self]

theorem lookupByte_cons_ne (a k : Int) (uv : UVal) (rest : List (Int × UVal)) (h : a ≠ k) :
    lookupByte ((k, uv) :: rest) a = lookupByte rest a := by
  rw [lookupByte, lookupByte, lookupU_cons_ne a k uv rest h]

theorem lookupByte_eq_none (us : List (Int × UVal)) (a : Int)
    (h : List.lookup a us = none) : lookupByte us a = none := by
  rw [lookupByte, h]

theorem applyUpds_spec :
    ∀ (us : List (Int × UVal)) (rs : List (Int × List Nat)),
      (us.map Prod.fst).Nodup →
      (∀ kv ∈ us, ∃ n, kv.2 = UVal.b n) →
      (∀ kv ∈ us, covers rs kv.1) →
      ∃ rs', applyUpds us rs = some rs' ∧ rshape rs' = rshape rs ∧
        ∀ a, runByte rs' a = oOr (lookupByte us a) (runByte rs a) := by
  intro us
  induction us with
  | nil =>
    intro rs _ _ _
    exact ⟨rs, rfl, rfl, fun a => rfl⟩
  | cons kv rest ih =>
    intro rs hn hb hc
    obtain ⟨k, uv⟩ := kv
    obtain ⟨v, hv⟩ := hb (k, uv) (List.mem_cons_self _ _)
    simp only at hv
    subst hv
    obtain ⟨rs1, h1, hsh1, hrb1⟩ :=
      applyUpd_spec rs k v (hc (k, UVal.b v) (List.mem_cons_self _ _))
    have hn2 : (k :: rest.map Prod.fst).Nodup := by
      simpa using hn
    have hn' : (rest.map Prod.fst).Nodup := (List.nodup_cons.mp hn2).2
    have hk_not : k ∉ rest.map Prod.fst := (List.nodup_cons.mp hn2).1
    have hb' : ∀ kv ∈ rest, ∃ n, kv.2 = UVal.b n :=
      fun kv hkv => hb kv (List.mem_cons_of_mem _ hkv)
    have hc' : ∀ kv ∈ rest, covers rs1 kv.1 :=
      fun kv hkv => (covers_of_rshape rs1 rs hsh1 kv.1).mpr (hc kv (List.mem_cons_of_mem _ hkv))
    obtain ⟨rs', h2, hsh2, hrb2⟩ := ih rs1 hn' hb' hc'
    refine ⟨rs', ?_, hsh2.trans hsh1, ?_⟩
    · rw [applyUpds_cons_b, h1, Option.some_bind, h2]
    · intro a
      rw [hrb2 a]
      by_cases hak : a = k
      · subst hak
        rw [hrb1 a, if_pos rfl]
        rw [lookupByte_eq_none rest a (lookup_eq_none_of_not_mem_keys rest a hk_not)]
        rw [lookupByte_cons_self, oOr_none, oOr_some]
      · rw [hrb1 a, if_neg hak, lookupByte_cons_ne a k (UVal.b v) rest hak]

theorem mem_of_lookup_eq_some (l : List (Int × UVal)) (a : Int) (v : UVal)
    (h : List.lookup a l = some v) : (a, v) ∈ l := by
  induction l with
  | nil => cases h
  | cons hd tl ih =>
    obtain ⟨k, b⟩ := hd
    rw [List.lookup_cons] at h
    cases hab : (a == k) with
    | false =>
      rw [hab] at h
      exact List.mem_cons_of_mem _ (ih h)
    | true =>
      rw [hab] at h
      have hb := Option.some.inj h
      have ha : a = k := eq_of_beq hab
      subst ha
      subst hb
      exact List.mem_cons_self _ _

theorem scanB_cons (s : Int) (r : Region) (rest : List (Int × Region)) (k : Int) :
    scanB ((s, r) :: rest) k =
      match resolveR s r k with
      | some v => some v
      | none => scanB rest k := rfl

theorem isSome_scanB_iff (bs : List (Int × Region)) (a : Int) :
    (scanB bs a).isSome ↔ ∃ p ∈ bs, (resolveR p.1 p.2 a).isSome := by
  induction bs with
  | nil => simp [scanB]
  | cons q rest ih =>
    obtain ⟨s, r⟩ := q
    rw [scanB_cons]
    cases hq : resolveR s r a with
    | some v =>
      simp only [Option.isSome_some, true_iff]
      exact ⟨(s, r), List.mem_cons_self _ _, by rw [hq]; rfl⟩
    | none =>
      rw [ih]
      constructor
      · rintro ⟨p, hp, hres⟩
        exact ⟨p, List.mem_cons_of_mem _ hp, hres⟩
      · rintro ⟨p, hp, hres⟩
        rcases List.mem_cons.mp hp with hp | hp
        · subst hp
          rw [hq] at hres
          cases hres
        · exact ⟨p, hp, hres⟩

theorem mem_insortB_of_mem (bs : List (Int × Region)) (p x : Int × Region) (h : x ∈ bs) :
    x ∈ insortB bs p := by
  induction bs with
  | nil => cases h
  | cons q rest ih =>
    rw [insortB]
    by_cases hlt : p.1 < q.1
    · rw [if_pos hlt]
      exact List.mem_cons_of_mem _ h
    · rw [if_neg hlt]
      rcases List.mem_cons.mp h with h | h
      · subst h
        exact List.mem_cons_self _ _
      · exact List.mem_cons_of_mem _ (ih h)

theorem isSome_scanB_insortB (bs : List (Int × Region)) (p : Int × Region) (a : Int)
    (h : (scanB bs a).isSome) : (scanB (insortB bs p) a).isSome := by
  rw [isSome_scanB_iff] at h ⊢
  obtain ⟨q, hq, hres⟩ := h
  exact ⟨q, mem_insortB_of_mem bs p q hq, hres⟩

mutual

theorem getitem_b (c : Clemory) (h : WFc c) (a : Int) (v : UVal)
    (hv : getitem c a = some v) : ∃ n, v = UVal.b n := by
  rcases h with ⟨bs, us, p, f, cb, hnodup, hvals, hcov, hnested⟩
  rw [getitem_mk] at hv
  cases hl : List.lookup a us with
  | some v0 =>
    rw [hl] at hv
    have hv0 := Option.some.inj hv
    subst hv0
    exact hvals (a, v0) (mem_of_lookup_eq_some us a v0 hl)
  | none =>
    rw [hl] at hv
    exact scanB_b bs hnested a v hv
termination_by sizeOf c

theorem scanB_b (bs : List (Int × Region))
    (h : ∀ s c', (s, Region.mem c') ∈ bs → WFc c') (a : Int) (v : UVal)
    (hv : scanB bs a = some v) : ∃ n, v = UVal.b n := by
  match bs, h, hv with
  | [], _, hv => exact Option.noConfusion hv
  | (s, Region.str d) :: rest, h, hv =>
    rw [scanB_cons] at hv
    cases hq : resolveR s (Region.str d) a with
    | some v0 =>
      rw [hq] at hv
      have hv0 := Option.some.inj hv
      subst hv0
      rw [resolveR] at hq
      by_cases hcond : 0 ≤ a - s ∧ a - s < (d.length : Int)
      · rw [if_pos hcond] at hq
        cases hg : d[(a - s).toNat]? with
        | none =>
          rw [hg] at hq
          cases hq
        | some b =>
          rw [hg] at hq
          exact ⟨b, (Option.some.inj hq).symm⟩
      · rw [if_neg hcond] at hq
        cases hq
    | none =>
      rw [hq] at hv
      exact scanB_b rest (fun s' c' hm => h s' c' (List.mem_cons_of_mem _ hm)) a v hv
  | (s, Region.mem c') :: rest, h, hv =>
    rw [scanB_cons] at hv
    cases hq : resolveR s (Region.mem c') a with
    | some v0 =>
      rw [hq] at hv
      have hv0 := Option.some.inj hv
      subst hv0
      rw [resolveR] at hq
      exact getitem_b c' (h s c' (List.mem_cons_self _ _)) (a - s) v0 hq
    | none =>
      rw [hq] at hv
      exact scanB_b rest (fun s' c' hm => h s' c' (List.mem_cons_of_mem _ hm)) a v hv
termination_by sizeOf bs

end

theorem strideRepr_mk (bs : List (Int × Region)) (us : List (Int × UVal)) (p : Int) (f : Bool)
    (cb : List (Int × List Nat)) :
    strideRepr (.mk bs us p f cb) =
      match baseRuns bs with
      | none => none
      | some base => applyUpds us base := rfl

theorem baseRuns_cons_str (s : Int) (d : List Nat) (rest : List (Int × Region)) :
    baseRuns ((s, Region.str d) :: rest) =
      match baseRuns rest with
      | none => none
      | some rs => some ((s, d) :: rs) := rfl

theorem baseRuns_cons_mem (s : Int) (c : Clemory) (rest : List (Int × Region)) :
    baseRuns ((s, Region.mem c) :: rest) =
      match strideRepr c with
      | none => none
      | some sub =>
        match baseRuns rest with
        | none => none
        | some rs => some (sub.map (fun p => (p.1 + s, p.2)) ++ rs) := rfl

theorem resolveR_str (s : Int) (d : List Nat) (k : Int) :
    resolveR s (Region.str d) k =
      if 0 ≤ k - s ∧ k - s < (d.length : Int) then (d[(k - s).toNat]?).map UVal.b
      else none := rfl

theorem resolveR_mem (s : Int) (c : Clemory) (k : Int) :
    resolveR s (Region.mem c) k = getitem c (k - s) := rfl

mutual

theorem strideEquiv (c : Clemory) (h : WFc c) :
    ∃ runs, strideRepr c = some runs ∧ ∀ a, runByte runs a = optByte (getitem c a) := by
  rcases h with ⟨bs, us, p, f, cb, hnodup, hvals, hcov, hnested⟩
  obtain ⟨base, hbase, hbeq⟩ := baseRunsEquiv bs hnested
  have hcovers : ∀ kv ∈ us, covers base kv.1 := by
    intro kv hkv
    have h1 : (scanB bs kv.1).isSome := hcov kv hkv
    obtain ⟨v, hv⟩ := Option.isSome_iff_exists.mp h1
    obtain ⟨n, hn⟩ := scanB_b bs hnested kv.1 v hv
    subst hn
    have h2 : runByte base kv.1 = some n := by
      rw [hbeq kv.1, hv]
      rfl
    rw [← isSome_runByte_iff, h2]
    rfl
  obtain ⟨runs, hupd, hshape, hrb⟩ := applyUpds_spec us base hnodup hvals hcovers
  refine ⟨runs, ?_, ?_⟩
  · rw [strideRepr_mk, hbase]
    exact hupd
  · intro a
    rw [hrb a, getitem_mk]
    cases hl : List.lookup a us with
    | some v =>
      obtain ⟨n, hn⟩ := hvals (a, v) (mem_of_lookup_eq_some us a v hl)
      simp only at hn
      subst hn
      rw [show lookupByte us a = some n by rw [lookupByte, hl]]
      rfl
    | none =>
      rw [lookupByte_eq_none us a hl, oOr_none, hbeq a]
termination_by sizeOf c

theorem baseRunsEquiv (bs : List (Int × Region))
    (h : ∀ s c', (s, Region.mem c') ∈ bs → WFc c') :
    ∃ runs, baseRuns bs = some runs ∧ ∀ a, runByte runs a = optByte (scanB bs a) := by
  match bs, h with
  | [], _ => exact ⟨[], rfl, fun a => rfl⟩
  | (s, Region.str d) :: rest, h =>
    obtain ⟨rs, hrs, heq⟩ :=
      baseRunsEquiv rest (fun s' c' hm => h s' c' (List.mem_cons_of_mem _ hm))
    refine ⟨(s, d) :: rs, ?_, ?_⟩
    · rw [baseRuns_cons_str, hrs]
    · intro a
      rw [runByte_cons, scanB_cons, resolveR_str]
      by_cases hcond : s ≤ a ∧ a < s + (d.length : Int)
      · have hcond' : 0 ≤ a - s ∧ a - s < (d.length : Int) := by omega
        rw [if_pos hcond, if_pos hcond']
        have hlt : (a - s).toNat < d.length := by omega
        rw [List.getElem?_eq_getElem hlt]
        rfl
      · have hcond' : ¬(0 ≤ a - s ∧ a - s < (d.length : Int)) := by omega
        rw [if_neg hcond, if_neg hcond']
        exact heq a
  | (s, Region.mem c') :: rest, h =>
    have hwf : WFc c' := h s c' (List.mem_cons_self _ _)
    obtain ⟨sub, hsub, hsubeq⟩ := strideEquiv c' hwf
    obtain ⟨rs, hrs, heq⟩ :=
      baseRunsEquiv rest (fun s' c'' hm => h s' c'' (List.mem_cons_of_mem _ hm))
    refine ⟨sub.map (fun p => (p.1 + s, p.2)) ++ rs, ?_, ?_⟩
    · rw [baseRuns_cons_mem, hsub, hrs]
    · intro a
      rw [runByte_append, runByte_offset, hsubeq (a - s), scanB_cons, resolveR_mem]
      cases hg : getitem c' (a - s) with
      | some v =>
        obtain ⟨n, hn⟩ := getitem_b c' hwf (a - s) v hg
        subst hn
        rfl
      | none =>
        exact heq a
termination_by sizeOf bs

end

theorem add_backer_eq (c : Clemory) (s : Int) (r : Region) (c' : Clemory)
    (h : add_backer c s r = some c') :
    contains c s = false ∧
    c' = .mk (insortB c.backers (s, r)) c.updates c.pointer true c.cbackers := by
  rw [add_backer] at h
  by_cases hc : contains c s = true
  · rw [if_pos hc] at h
    cases h
  · rw [if_neg hc] at h
    exact ⟨by simpa using hc, (Option.some.inj h).symm⟩

theorem setitem_eq (c : Clemory) (k : Int) (v : Nat) (c' : Clemory)
    (h : setitem c k v = some c') :
    contains c k = true ∧
    c' = .mk c.backers (insertU c.updates k (.b v)) c.pointer true c.cbackers := by
  rw [setitem] at h
  by_cases hc : contains c k = true
  · rw [if_pos hc] at h
    exact ⟨hc, (Option.some.inj h).symm⟩
  · rw [if_neg hc] at h
    cases h

theorem reachable_wf (c : Clemory) (h : Reachable c) : WFc c := by
  induction h with
  | empty =>
    refine WFc.intro [] [] 0 true [] ?_ ?_ ?_ ?_
    · simp
    · intro kv hkv
      cases hkv
    · intro kv hkv
      cases hkv
    · intro s c' hm
      cases hm
  | @addStr c s d c' hr hadd ih =>
    obtain ⟨hnc, hc'⟩ := add_backer_eq c s (.str d) c' hadd
    subst hc'
    rcases ih with ⟨bs, us, p, f, cb, hnodup, hvals, hcov, hnested⟩
    refine WFc.intro _ _ _ _ _ ?_ ?_ ?_ ?_
    · simpa using hnodup
    · intro kv hkv
      exact hvals kv hkv
    · intro kv hkv
      exact isSome_scanB_insortB bs (s, .str d) kv.1 (hcov kv hkv)
    · intro s' c'' hm
      rcases mem_insortB bs (s, .str d) (s', .mem c'') hm with hm' | hm'
      · exact hnested s' c'' hm'
      · injection hm' with h1 h2
        cases h2
  | @addMem c cn s c' hr hrn hadd ih ihn =>
    obtain ⟨hnc, hc'⟩ := add_backer_eq c s (.mem cn) c' hadd
    subst hc'
    rcases ih with ⟨bs, us, p, f, cb, hnodup, hvals, hcov, hnested⟩
    refine WFc.intro _ _ _ _ _ ?_ ?_ ?_ ?_
    · simpa using hnodup
    · intro kv hkv
      exact hvals kv hkv
    · intro kv hkv
      exact isSome_scanB_insortB bs (s, .mem cn) kv.1 (hcov kv hkv)
    · intro s' c'' hm
      rcases mem_insortB bs (s, .mem cn) (s', .mem c'') hm with hm' | hm'
      · exact hnested s' c'' hm'
      · injection hm' with h1 h2
        injection h2 with h3
        subst h3
        exact ihn
  | @write c k v c' hr hset ih =>
    obtain ⟨hck, hc'⟩ := setitem_eq c k v c' hset
    subst hc'
    rcases ih with ⟨bs, us, p, f, cb, hnodup, hvals, hcov, hnested⟩
    refine WFc.intro _ _ _ _ _ ?_ ?_ ?_ ?_
    · exact keys_insertU_nodup us k (.b v) hnodup
    · intro kv hkv
      rcases mem_insertU us k (.b v) kv hkv with h' | h'
      · exact ⟨v, by rw [h']⟩
      · exact hvals kv h'
    · intro kv hkv
      rcases mem_insertU us k (.b v) kv hkv with h' | h'
      · subst h'
        have hg : (getitem (Clemory.mk bs us p f cb) k).isSome := hck
        rw [getitem_mk] at hg
        cases hl : List.lookup k us with
        | some v0 =>
          exact hcov (k, v0) (mem_of_lookup_eq_some us k v0 hl)
        | none =>
          rw [hl] at hg
          exact hg
      · exact hcov kv h'
    · intro s' c'' hm
      exact hnested s' c'' hm

theorem reachable_flag (c : Clemory) (h : Reachable c) : c.flatNeeded = true := by
  induction h with
  | empty => rfl
  | @addStr c s d c' hr hadd ih =>
    obtain ⟨_, hc'⟩ := add_backer_eq c s (.str d) c' hadd
    subst hc'
    rfl
  | @addMem c cn s c' hr hrn hadd ih ihn =>
    obtain ⟨_, hc'⟩ := add_backer_eq c s (.mem cn) c' hadd
    subst hc'
    rfl
  | @write c k v c' hr hset ih =>
    obtain ⟨_, hc'⟩ := setitem_eq c k v c' hset
    subst hc'
    rfl

theorem scanC_cons (s : Int) (d : List Nat) (rest : List (Int × List Nat)) (addr : Int) :
    scanC ((s, d) :: rest) addr =
      if s ≤ addr ∧ addr < s + (d.length : Int) then
        some ((s, d), addr - s, (d.length : Int) - s)
      else scanC rest addr := rfl

theorem scanC_eq_runByte (rs : List (Int × List Nat)) (a : Int) :
    (match scanC rs a with
     | some (p, off, _) => p.2[off.toNat]?
     | none => none) = runByte rs a := by
  induction rs with
  | nil => rfl
  | cons q rest ih =>
    obtain ⟨s, d⟩ := q
    rw [runByte_cons, scanC_cons]
    by_cases h : s ≤ a ∧ a < s + (d.length : Int)
    · rw [if_pos h, if_pos h]
    · rw [if_neg h, if_neg h]
      exact ih

theorem flatReadByte_def (c : Clemory) (a : Int) :
    flatReadByte c a =
      match read_bytes_c c a with
      | some (_, (_, d), off, _) => d[off.toNat]?
      | none => none := rfl

theorem read_bytes_c_def (c : Clemory) (addr : Int) :
    read_bytes_c c addr =
      match (if c.flatNeeded then flatten_to_c c else some c) with
      | none => none
      | some c1 =>
        match scanC c1.cbackers addr with
        | none => none
        | some r => some (c1, r) := rfl

theorem flatReadByte_eq (c : Clemory) (a : Int) (runs : List (Int × List Nat))
    (hflag : c.flatNeeded = true) (hsr : strideRepr c = some runs) :
    flatReadByte c a = runByte runs a := by
  have h1 : read_bytes_c c a =
      match scanC runs a with
      | none => none
      | some r => some (.mk c.backers c.updates c.pointer false runs, r) := by
    rw [read_bytes_c_def, hflag, if_pos rfl, flatten_to_c, hsr]
    rfl
  rw [flatReadByte_def, h1, ← scanC_eq_runByte runs a]
  cases hscan : scanC runs a with
  | none => rfl
  | some r =>
    obtain ⟨⟨s0, d0⟩, off0, rem0⟩ := r
    rfl

/-- C3. Flatten/read equivalence on reachable states: for every state built
by add_backer and __setitem__ operations and every address covered by some
backer, reading through the flattened representation (read_bytes_c, which
rebuilds the runs via _stride_repr, with the byte taken at the returned
pointer) yields exactly the byte that direct byte-level __getitem__ returns
at that address. -/
theorem flatten_read_equiv (c : Clemory) (hr : Reachable c) (a : Int)
    (hcov : (scanB c.backers a).isSome) :
    ∃ v, flatReadByte c a = some v ∧ getitem c a = some (UVal.b v) := by
  have hwf := reachable_wf c hr
  obtain ⟨runs, hsr, heq⟩ := strideEquiv c hwf
  have hflag : c.flatNeeded = true := reachable_flag c hr
  have hg : (getitem c a).isSome := by
    rw [clemory_eta c, getitem_mk]
    cases hl : List.lookup a c.updates with
    | some v => rfl
    | none => exact hcov
  obtain ⟨v0, hv0⟩ := Option.isSome_iff_exists.mp hg
  obtain ⟨n, hn⟩ := getitem_b c hwf a v0 hv0
  subst hn
  refine ⟨n, ?_, hv0⟩
  rw [flatReadByte_eq c a runs hflag hsr, heq a, hv0]
  rfl

/-- Witness for flatten_read_equiv: the reachable state with one backer
[1, 2, 3] at base 0 and the overlay byte 7 written at address 1, queried at
the covered address 1. -/
theorem flatten_read_equiv_witness :
    ∃ v, flatReadByte exWritten 1 = some v ∧ getitem exWritten 1 = some (UVal.b v) :=
  flatten_read_equiv exWritten
    (Reachable.write (@Reachable.addStr emptyClemory 0 [1, 2, 3] exAdded Reachable.empty rfl)
      (rfl : setitem exAdded 1 7 = some exWritten))
    1 rfl

end Cle
